import Mathlib

/-!
Verification of the IRL-Subtitles sound-direction pipeline.

Shallow embedding of the relevant parts of
`Firmware/Arm Board/ESP32_Arm_Boards_AP/sound-direction-finder-2d-v4.py`
(analysis pipeline) and `ODAS-Boards/main/pi-four-mic-streamV2.py`
(double-buffered broadcast), together with theorems settling the frozen
claims about them.
-/

namespace IRLSub

/-! ## Bounded analysis queue (`audio_queue`, `read_audio_stream` lines 86-99)

Python `queue.Queue(maxsize=5)` is modelled as a FIFO list: `put` appends at
the back, `get` removes the front (oldest).  The producer first tries a
non-blocking put; on `queue.Full` it removes one item with `get_nowait` and
puts again.  `enqueueDrop` is that combined operation in the sequential
semantics. -/

def queueCapacity : Nat := 5

def enqueueDrop (q : List (List Nat)) (x : List Nat) : List (List Nat) :=
  if q.length < queueCapacity then q ++ [x] else q.drop 1 ++ [x]

def dequeueFront (q : List (List Nat)) : List (List Nat) := q.drop 1

/-! ## FrameSource retry loop (`read_audio_stream` lines 53-111)

One iteration of the outer `while` performs a connection attempt whose
outcome is: a non-200 response, a transport exception on connect, a
successful connection whose stream later ends gracefully, or a successful
connection that later dies with a transport exception (which is caught by
the same `except` and increments the counter after the reset).  The loop
guard is `not stop_event.is_set() and retry_count < max_retries`; the stop
event is set only in the exception branch once the cap is reached. -/

inductive Outcome where
  | non200 : Outcome
  | connErr : Outcome
  | okGraceful : Outcome
  | okThenErr : Outcome
deriving DecidableEq

structure ReaderState where
  retryCount : Nat
  stopSignal : Bool
deriving DecidableEq

def maxRetries : Nat := 5

def initReader : ReaderState := ⟨0, false⟩

def readerGuard (s : ReaderState) : Bool :=
  !s.stopSignal && decide (s.retryCount < maxRetries)

def stepReader (s : ReaderState) (o : Outcome) : ReaderState :=
  match o with
  | .non200 => { s with retryCount := s.retryCount + 1 }
  | .connErr =>
      let n := s.retryCount + 1
      if n < maxRetries then { s with retryCount := n }
      else { retryCount := n, stopSignal := true }
  | .okGraceful => { s with retryCount := 0 }
  | .okThenErr =>
      if 1 < maxRetries then { s with retryCount := 1 }
      else { retryCount := 1, stopSignal := true }

def runReader (s : ReaderState) : List Outcome → ReaderState
  | [] => s
  | o :: os => if readerGuard s then runReader (stepReader s o) os else s

/-! ## Channel parser (`parse_audio_data` lines 114-140)

Raw bytes are decoded as interleaved little-endian signed 16-bit samples
(`np.frombuffer(raw, dtype=np.int16)`); `np.frombuffer` raises when the
byte count is not a multiple of 2, which the `except` clause turns into the
default result.  Fewer than `CHANNELS` samples also yields the default:
four channels of a single zero sample.  Otherwise the sample list is
truncated to the largest multiple of 4, reshaped to rows of 4, and column
`i` is scaled by `mic_gains[i]`.  Gains are rationals (Python floats such
as the default 1.0). -/

def numChannels : Nat := 4

def int16OfBytes (lo hi : Nat) : Int :=
  let u : Nat := lo % 256 + 256 * (hi % 256)
  if u < 32768 then (u : Int) else (u : Int) - 65536

def samplesOfBytes : List Nat → List Int
  | [] => []
  | [_] => []
  | lo :: hi :: rest => int16OfBytes lo hi :: samplesOfBytes rest

def defaultChannels : List (List ℚ) := List.replicate numChannels [0]

def parseAudioData (gains : Fin 4 → ℚ) (raw : List Nat) : List (List ℚ) :=
  if raw.length % 2 ≠ 0 then defaultChannels
  else if (samplesOfBytes raw).length < numChannels then defaultChannels
  else
    List.ofFn fun i : Fin 4 =>
      (List.range ((samplesOfBytes raw).length / numChannels * numChannels /
          numChannels)).map fun k =>
        ((((samplesOfBytes raw).take
            ((samplesOfBytes raw).length / numChannels * numChannels)).getD
          (k * numChannels + (i : Nat)) 0 : ℤ) : ℚ) * gains i

/-- Spec-side demuxer, following the claim text: it must fail with
`MisalignedFrame` whenever the sample count is not divisible by the channel
count, and must never silently truncate. -/
inductive MisalignedFrame where
  | mk : MisalignedFrame
deriving DecidableEq

def channelDemuxerSpec (gains : Fin 4 → ℚ) (raw : List Nat) :
    Except MisalignedFrame (List (List ℚ)) :=
  let samples := samplesOfBytes raw
  if samples.length % numChannels ≠ 0 then .error .mk
  else
    .ok (List.ofFn fun i : Fin 4 =>
      (List.range (samples.length / numChannels)).map fun k =>
        ((samples.getD (k * numChannels + (i : Nat)) 0 : ℤ) : ℚ) * gains i)

def unitGains : Fin 4 → ℚ := fun _ => 1

/-! ## BroadcastBuffer (`process_audio_buffers` lines 126-207)

The two `bytearray` buffers, their write cursors and the selector bit are
modelled as explicit state.  `buffer_sel = true` means buffer A is being
filled.  Python slice assignment `buf[p:p+n] = data` (with `p + n` at most
the length) is `overwrite`; the tail assignment `buf[p:] = data` is the
same with `n = len - p`; the prefix assignment `buf[:r] = data` replaces
the first `min r (len buf)` elements, which for a `bytearray` is
`data ++ buf.drop r` even when `r` exceeds the length (the buffer then
grows) — `overwrite buf 0 data` with `data.length = r` matches that
exactly.  `writeChunk` returns the next state together with the list
(empty or singleton) of buffers completed by this write; a reader that
observes every selector flip is served exactly these completed buffers in
flip order (`AudioStreamHandler.do_GET` lines 212-251). -/

def overwrite (buf : List Nat) (pos : Nat) (data : List Nat) : List Nat :=
  buf.take pos ++ data ++ buf.drop (pos + data.length)

structure BBState where
  bufA : List Nat
  bufB : List Nat
  posA : Nat
  posB : Nat
  sel : Bool
deriving DecidableEq

def initBB (cap : Nat) : BBState :=
  ⟨List.replicate cap 0, List.replicate cap 0, 0, 0, true⟩

def writeChunk : BBState → List Nat → BBState × List (List Nat)
  | ⟨bufA, bufB, posA, posB, true⟩, data =>
      if data.length ≤ bufA.length - posA then
        if bufA.length ≤ posA + data.length then
          (⟨overwrite bufA posA data, bufB, 0, posB, false⟩,
            [overwrite bufA posA data])
        else
          (⟨overwrite bufA posA data, bufB, posA + data.length, posB, true⟩, [])
      else
        (⟨overwrite bufA posA (data.take (bufA.length - posA)),
          overwrite bufB 0 (data.drop (bufA.length - posA)), 0,
          data.length - (bufA.length - posA), false⟩,
          [overwrite bufA posA (data.take (bufA.length - posA))])
  | ⟨bufA, bufB, posA, posB, false⟩, data =>
      if data.length ≤ bufB.length - posB then
        if bufB.length ≤ posB + data.length then
          (⟨bufA, overwrite bufB posB data, posA, 0, true⟩,
            [overwrite bufB posB data])
        else
          (⟨bufA, overwrite bufB posB data, posA, posB + data.length, false⟩, [])
      else
        (⟨overwrite bufA 0 (data.drop (bufB.length - posB)),
          overwrite bufB posB (data.take (bufB.length - posB)),
          data.length - (bufB.length - posB), 0, true⟩,
          [overwrite bufB posB (data.take (bufB.length - posB))])

def writeAll (s : BBState) : List (List Nat) → BBState × List (List Nat)
  | [] => (s, [])
  | w :: ws =>
      let r := writeChunk s w
      let rest := writeAll r.1 ws
      (rest.1, r.2 ++ rest.2)

/-- Bytes of the currently filling buffer that have been written since the
last flip. -/
def pendingBytes : BBState → List Nat
  | ⟨bufA, _, posA, _, true⟩ => bufA.take posA
  | ⟨_, bufB, _, posB, false⟩ => bufB.take posB

/-- Producer-side well-formedness: both buffers have the configured
capacity, the filling cursor is strictly below capacity, and the idle
cursor of the other buffer is zero. -/
def BBWf (cap : Nat) : BBState → Prop
  | ⟨bufA, bufB, posA, posB, true⟩ =>
      bufA.length = cap ∧ bufB.length = cap ∧ posA < cap ∧ posB = 0
  | ⟨bufA, bufB, posA, posB, false⟩ =>
      bufA.length = cap ∧ bufB.length = cap ∧ posB < cap ∧ posA = 0

/-! ## Planar vector helpers (`np.linalg.norm`, elementwise numpy ops) -/

noncomputable def norm2 (v : ℝ × ℝ) : ℝ := Real.sqrt (v.1 ^ 2 + v.2 ^ 2)

noncomputable def normalizeV (v : ℝ × ℝ) : ℝ × ℝ := (v.1 / norm2 v, v.2 / norm2 v)

def addV (a b : ℝ × ℝ) : ℝ × ℝ := (a.1 + b.1, a.2 + b.2)

def smulV (c : ℝ) (v : ℝ × ℝ) : ℝ × ℝ := (c * v.1, c * v.2)

noncomputable def meanV (l : List (ℝ × ℝ)) : ℝ × ℝ :=
  ((l.map Prod.fst).sum / l.length, (l.map Prod.snd).sum / l.length)

/-! ## DirectionFuser (`tdoa_to_direction` lines 221-268)

`MIC_POSITIONS` projected on the x,y plane; `time_delays` has one entry
per microphone with index 0 the reference (always 0 in the pipeline, but
the function takes the whole vector and `np.max(np.abs(time_delays))`
ranges over all four entries). -/

def micPos : Fin 4 → ℝ × ℝ
  | 0 => (-0.075, -0.075)
  | 1 => (-0.075, 0.075)
  | 2 => (0.075, 0.075)
  | 3 => (0.075, -0.075)

def geomVec (i : Fin 4) : ℝ × ℝ :=
  ((micPos i).1 - (micPos 0).1, (micPos i).2 - (micPos 0).2)

noncomputable def maxAbsDelay (d : Fin 4 → ℝ) : ℝ :=
  max (max (max |d 0| |d 1|) |d 2|) |d 3|

/-- Contribution of mic `i` to the accumulated direction, with the weight
denominator `denom` passed in (the source uses `max + 1e-10`). -/
noncomputable def fuseTerm (d : Fin 4 → ℝ) (denom : ℝ) (i : Fin 4) : ℝ × ℝ :=
  if 1 < |d i| then
    smulV ((if 0 < d i then (-1 : ℝ) else 1) * (|d i| / denom)) (geomVec i)
  else (0, 0)

noncomputable def fuseWeight (d : Fin 4 → ℝ) (denom : ℝ) (i : Fin 4) : ℝ :=
  if 1 < |d i| then |d i| / denom else 0

noncomputable def fuseDir (d : Fin 4 → ℝ) (denom : ℝ) : ℝ × ℝ :=
  addV (addV (fuseTerm d denom 1) (fuseTerm d denom 2)) (fuseTerm d denom 3)

noncomputable def fuseTotalWeight (d : Fin 4 → ℝ) (denom : ℝ) : ℝ :=
  fuseWeight d denom 1 + fuseWeight d denom 2 + fuseWeight d denom 3

noncomputable def tdoaToDirection (d : Fin 4 → ℝ) (soundActive : Bool) : ℝ × ℝ :=
  if soundActive = false then (0, 0)
  else if 0 < fuseTotalWeight d (maxAbsDelay d + 1e-10) ∧
      0 < norm2 (fuseDir d (maxAbsDelay d + 1e-10)) then
    normalizeV (fuseDir d (maxAbsDelay d + 1e-10))
  else (0, 0)

/-- Fuser as the claim words it: weights are `abs delay / max abs delay`
with no epsilon in the denominator; everything else identical. -/
noncomputable def directionFuserClaim (d : Fin 4 → ℝ) (soundActive : Bool) : ℝ × ℝ :=
  if soundActive = false then (0, 0)
  else if 0 < fuseTotalWeight d (maxAbsDelay d) ∧
      0 < norm2 (fuseDir d (maxAbsDelay d)) then
    normalizeV (fuseDir d (maxAbsDelay d))
  else (0, 0)

/-! ## TemporalSmoother (`audio_processor_thread` lines 427-498)

The smoothing window `directions_buffer` (capacity `buffer_size = 5`) and
the per-frame handling of `(sound_active, direction)`: when inactive the
thread emits the zero vector and `continue`s, leaving the window as it is;
when active it pushes a nonzero direction (evicting the oldest element if
over capacity) and emits the renormalized mean, and clears the window when
the fused direction is zero. -/

def smootherCapacity : Nat := 5

noncomputable def pushEvict (buf : List (ℝ × ℝ)) (dir : ℝ × ℝ) :
    List (ℝ × ℝ) :=
  if smootherCapacity < (buf ++ [dir]).length then (buf ++ [dir]).drop 1
  else buf ++ [dir]

noncomputable def smootherStep (buf : List (ℝ × ℝ)) (soundActive : Bool)
    (dir : ℝ × ℝ) : List (ℝ × ℝ) × (ℝ × ℝ) :=
  if soundActive = false then (buf, (0, 0))
  else if 0 < norm2 dir then
    (pushEvict buf dir,
      if 0 < (pushEvict buf dir).length then
        (if 0 < norm2 (meanV (pushEvict buf dir)) then
          normalizeV (meanV (pushEvict buf dir))
        else meanV (pushEvict buf dir))
      else (0, 0))
  else ([], (0, 0))

noncomputable def runSmoother (buf : List (ℝ × ℝ)) :
    List (Bool × (ℝ × ℝ)) → List (ℝ × ℝ) × List (ℝ × ℝ)
  | [] => (buf, [])
  | e :: es =>
      let r := smootherStep buf e.1 e.2
      let rest := runSmoother r.1 es
      (rest.1, r.2 :: rest.2)

/-! ## BandpassStage (`apply_bandpass_filter` lines 271-289)

`scipy.signal.butter` is an external library routine; it is modelled as an
arbitrary coefficient designer mapping the normalized cutoff pair to the
`(b, a)` coefficient lists, which is all the claims need.  `signal.lfilter`
is the standard direct-form IIR recurrence
`y[n] = (sum b[k] x[n-k] - sum a[k] y[n-k]) / a[0]`, embedded concretely.
The source calls `signal.butter` inside `apply_bandpass_filter`, hence once
per processed frame; the instrumented frame loop counts those calls. -/

def sampleRate : ℝ := 24000

structure FilterDesign where
  designer : ℝ × ℝ → List ℝ × List ℝ

noncomputable def dotHead : List ℝ → List ℝ → ℝ
  | a :: as, b :: bs => a * b + dotHead as bs
  | _, _ => 0

noncomputable def lfilterGo (b a : List ℝ) :
    List ℝ → List ℝ → List ℝ → List ℝ
  | [], _, _ => []
  | x :: xs, pIn, pOut =>
      let y := (dotHead b (x :: pIn) - dotHead (a.drop 1) pOut) / a.headD 0
      y :: lfilterGo b a xs (x :: pIn) (y :: pOut)

noncomputable def lfilter (b a x : List ℝ) : List ℝ := lfilterGo b a x [] []

noncomputable def bandpassCoeffs (fd : FilterDesign) (lowFreq highFreq : ℝ) :
    List ℝ × List ℝ :=
  fd.designer (lowFreq / (0.5 * sampleRate), highFreq / (0.5 * sampleRate))

noncomputable def applyBandpassFilter (fd : FilterDesign)
    (channels : List (List ℝ)) (lowFreq highFreq : ℝ) : List (List ℝ) :=
  let ba := bandpassCoeffs fd lowFreq highFreq
  channels.map (lfilter ba.1 ba.2)

/-- Same function instrumented with the number of coefficient-design
(`signal.butter`) invocations it performs: one per call, since the design
happens inside the function body. -/
noncomputable def applyBandpassFilterInstr (fd : FilterDesign)
    (channels : List (List ℝ)) (lowFreq highFreq : ℝ) :
    List (List ℝ) × Nat :=
  (applyBandpassFilter fd channels lowFreq highFreq, 1)

noncomputable def processFramesBandpass (fd : FilterDesign)
    (lowFreq highFreq : ℝ) :
    List (List (List ℝ)) → List (List (List ℝ)) × Nat
  | [] => ([], 0)
  | f :: fs =>
      let r := applyBandpassFilterInstr fd f lowFreq highFreq
      let rest := processFramesBandpass fd lowFreq highFreq fs
      (r.1 :: rest.1, r.2 + rest.2)

/-- Concrete designer used only to evaluate closed statements. -/
def trivialDesign : FilterDesign := ⟨fun _ => ([1], [1])⟩

/-! ## TDOAEstimator (`compute_cross_correlation` lines 162-200,
`estimate_tdoa` lines 203-218)

`np.fft.rfft` of a length-`n` real signal is the discrete Fourier
transform at bins `0 .. n/2`; `np.fft.irfft` maps a half spectrum of
length `m` back to `2*(m-1)` real samples through the Hermitian extension.
`scipy.signal.windows.hann(M)` is the symmetric Hann window
`0.5 - 0.5*cos(2*pi*k/(M-1))`.  `np.argmax` returns the first index of the
maximum.  The one numpy operation in `compute_cross_correlation` that can
raise is the elementwise product of `signal2[:len(window)]` with the
window when `signal2` is shorter than `signal1` (shape mismatch); the
`except` clause turns that into a returned delay of 0. -/

noncomputable def hannW (M k : Nat) : ℝ :=
  1 / 2 - 1 / 2 * Real.cos (2 * Real.pi * k / ((M : ℝ) - 1))

noncomputable def rfft (x : List ℝ) : List ℂ :=
  (List.range (x.length / 2 + 1)).map fun k : ℕ =>
    ∑ j ∈ Finset.range x.length,
      ((x.getD j 0 : ℝ) : ℂ) *
        Complex.exp (-(2 * (Real.pi : ℂ) * Complex.I * (j : ℂ) * (k : ℂ) /
          (x.length : ℂ)))

noncomputable def irfft (c : List ℂ) : List ℝ :=
  (List.range (2 * (c.length - 1))).map fun j : ℕ =>
    ((1 / ((2 * (c.length - 1) : Nat) : ℂ)) *
      ∑ k ∈ Finset.range (2 * (c.length - 1)),
        (if k < c.length then c.getD k 0
         else (starRingEnd ℂ) (c.getD (2 * (c.length - 1) - k) 0)) *
          Complex.exp (2 * (Real.pi : ℂ) * Complex.I * (j : ℂ) * (k : ℂ) /
            ((2 * (c.length - 1) : Nat) : ℂ))).re

noncomputable def argmaxGo : List ℝ → Nat → Nat → ℝ → Nat
  | [], _, bi, _ => bi
  | x :: xs, i, bi, bv =>
      if bv < x then argmaxGo xs (i + 1) i x else argmaxGo xs (i + 1) bi bv

noncomputable def argmaxList : List ℝ → Nat
  | [] => 0
  | x :: xs => argmaxGo xs 1 0 x

noncomputable def phaseTransform (z : ℂ) : ℂ :=
  z / ((Complex.abs z + 1e-10 : ℝ) : ℂ)

noncomputable def gccCorrelation (y1 y2 : List ℝ) : List ℝ :=
  irfft ((List.zipWith (fun u v => u * (starRingEnd ℂ) v) (rfft y1) (rfft y2)).map
    phaseTransform)

/-- Hann-window a signal against the window of the given length
(`signal * hann(len)` elementwise). -/
noncomputable def windowed (s : List ℝ) (n : Nat) : List ℝ :=
  List.zipWith (fun u v => u * v) s ((List.range n).map (hannW n))

/-- Wrap-around lag correction: `lag = mi` unless the peak index exceeds
half the correlation length, in which case the full length is
subtracted. -/
noncomputable def lagOfPeak (corr : List ℝ) (mi : Nat) : Int :=
  if corr.length / 2 < mi then (mi : Int) - corr.length else (mi : Int)

noncomputable def computeCrossCorrelation (s1 s2 : List ℝ) : Int :=
  if s1.length < 10 ∨ s2.length < 10 then 0
  else if s2.length < s1.length then 0
  else
    lagOfPeak
      (gccCorrelation (windowed s1 s1.length)
        (windowed (s2.take s1.length) s1.length))
      (argmaxList (gccCorrelation (windowed s1 s1.length)
        (windowed (s2.take s1.length) s1.length)))

/-- GCC-PHAT as the claim words it for equal-length inputs: identical
pipeline, but the peak index is the argmax of the correlation magnitude. -/
noncomputable def gccPhatClaim (s1 s2 : List ℝ) : Int :=
  lagOfPeak
    (gccCorrelation (windowed s1 s1.length) (windowed s2 s1.length))
    (argmaxList ((gccCorrelation (windowed s1 s1.length)
      (windowed s2 s1.length)).map fun r => |r|))

/-- GCC-PHAT with the peak index taken as numpy takes it: the first argmax
of the correlation values themselves. -/
noncomputable def gccPhatValue (s1 s2 : List ℝ) : Int :=
  lagOfPeak
    (gccCorrelation (windowed s1 s1.length) (windowed s2 s1.length))
    (argmaxList (gccCorrelation (windowed s1 s1.length)
      (windowed s2 s1.length)))

noncomputable def estimateTdoa (chs : List (List ℝ)) : List ℝ :=
  (List.range chs.length).map fun i =>
    if i = 0 then 0
    else ((computeCrossCorrelation (chs.getD 0 []) (chs.getD i []) : Int) : ℝ)

/-- Concrete inputs for the GCC-PHAT counterexample: a unit impulse at
sample 1 and its negation, both of length 10. -/
def deltaSig : List ℝ := [0, 1, 0, 0, 0, 0, 0, 0, 0, 0]

def negDeltaSig : List ℝ := [0, -1, 0, 0, 0, 0, 0, 0, 0, 0]

/-! ## Supporting lemmas -/

theorem samplesOfBytes_length (raw : List Nat) :
    (samplesOfBytes raw).length = raw.length / 2 := by
  induction raw using samplesOfBytes.induct with
  | case1 => simp [samplesOfBytes]
  | case2 x => simp [samplesOfBytes]
  | case3 lo hi rest ih =>
      simp only [samplesOfBytes, List.length_cons, ih]
      omega

theorem readerGuard_eq_true (s : ReaderState) :
    readerGuard s = true ↔ s.stopSignal = false ∧ s.retryCount < maxRetries := by
  cases s with
  | mk c st => cases st <;> simp [readerGuard]

theorem runReader_frozen (tr : List Outcome) (s : ReaderState)
    (h : readerGuard s = false) : runReader s tr = s := by
  cases tr with
  | nil => rfl
  | cons o os => simp [runReader, h]

theorem runReader_non200 (n c : Nat) (hc : c ≤ maxRetries) :
    runReader ⟨c, false⟩ (List.replicate n .non200) =
      ⟨min maxRetries (c + n), false⟩ := by
  induction n generalizing c with
  | zero =>
      have hm : min maxRetries (c + 0) = c := by omega
      rw [hm, List.replicate_zero]
      rfl
  | succ n ih =>
      by_cases hlt : c < maxRetries
      · rw [List.replicate_succ]
        have hg : readerGuard ⟨c, false⟩ = true :=
          (readerGuard_eq_true _).mpr ⟨rfl, hlt⟩
        simp only [runReader, hg, if_true, stepReader]
        rw [ih (c + 1) (by omega)]
        have hm : min maxRetries (c + 1 + n) = min maxRetries (c + (n + 1)) := by
          omega
        rw [hm]
      · have hg : readerGuard ⟨c, false⟩ = false := by
          cases hq : readerGuard ⟨c, false⟩
          · rfl
          · exact absurd ((readerGuard_eq_true _).mp hq).2 hlt
        rw [runReader_frozen _ _ hg]
        have hm : min maxRetries (c + (n + 1)) = c := by omega
        rw [hm]

theorem runReader_count_le (tr : List Outcome) (s : ReaderState)
    (h : s.retryCount ≤ maxRetries) :
    (runReader s tr).retryCount ≤ maxRetries := by
  induction tr generalizing s with
  | nil => exact h
  | cons o os ih =>
      by_cases hg : readerGuard s = true
      · simp only [runReader, hg, if_true]
        apply ih
        have hlt : s.retryCount < maxRetries :=
          ((readerGuard_eq_true s).mp hg).2
        cases o with
        | non200 => simp [stepReader]; omega
        | connErr => simp only [stepReader]; split <;> simp <;> omega
        | okGraceful => simp [stepReader]
        | okThenErr => simp only [stepReader]; split <;> simp <;> omega
      · have hg2 : readerGuard s = false := by
          cases hq : readerGuard s
          · rfl
          · exact absurd hq hg
        rw [runReader_frozen _ _ hg2]
        exact h

theorem parseAudioData_odd (gains : Fin 4 → ℚ) (raw : List Nat)
    (h : raw.length % 2 ≠ 0) : parseAudioData gains raw = defaultChannels := by
  unfold parseAudioData
  rw [if_pos h]

theorem parseAudioData_short (gains : Fin 4 → ℚ) (raw : List Nat)
    (h2 : raw.length % 2 = 0) (h : (samplesOfBytes raw).length < numChannels) :
    parseAudioData gains raw = defaultChannels := by
  unfold parseAudioData
  rw [if_neg (not_not_intro h2), if_pos h]

theorem parseAudioData_main (gains : Fin 4 → ℚ) (raw : List Nat)
    (h2 : raw.length % 2 = 0)
    (h : ¬ (samplesOfBytes raw).length < numChannels) :
    parseAudioData gains raw =
      List.ofFn fun i : Fin 4 =>
        (List.range ((samplesOfBytes raw).length / numChannels)).map fun k =>
          ((((samplesOfBytes raw).take
              ((samplesOfBytes raw).length / numChannels * numChannels)).getD
            (k * numChannels + (i : Nat)) 0 : ℤ) : ℚ) * gains i := by
  unfold parseAudioData
  rw [if_neg (not_not_intro h2), if_neg h]
  have hq : (samplesOfBytes raw).length / numChannels * numChannels /
      numChannels = (samplesOfBytes raw).length / numChannels := by
    simp [numChannels]
  rw [hq]

theorem norm2_nonneg (v : ℝ × ℝ) : 0 ≤ norm2 v := Real.sqrt_nonneg _

theorem norm2_smul (c : ℝ) (hc : 0 ≤ c) (v : ℝ × ℝ) :
    norm2 (smulV c v) = c * norm2 v := by
  unfold norm2 smulV
  have h : (c * v.1) ^ 2 + (c * v.2) ^ 2 = c ^ 2 * (v.1 ^ 2 + v.2 ^ 2) := by
    ring
  rw [h, Real.sqrt_mul (sq_nonneg c), Real.sqrt_sq hc]

theorem normalizeV_smul (c : ℝ) (hc : 0 < c) (v : ℝ × ℝ) :
    normalizeV (smulV c v) = normalizeV v := by
  unfold normalizeV
  rw [norm2_smul c hc.le v]
  unfold smulV
  rw [mul_div_mul_left v.1 (norm2 v) (ne_of_gt hc),
    mul_div_mul_left v.2 (norm2 v) (ne_of_gt hc)]

theorem smulV_addV (c : ℝ) (u v : ℝ × ℝ) :
    smulV c (addV u v) = addV (smulV c u) (smulV c v) := by
  unfold smulV addV
  simp [mul_add]

theorem abs_le_maxAbsDelay (d : Fin 4 → ℝ) (i : Fin 4) :
    |d i| ≤ maxAbsDelay d := by
  fin_cases i <;> simp [maxAbsDelay, le_max_iff, le_refl]

theorem maxAbsDelay_nonneg (d : Fin 4 → ℝ) : 0 ≤ maxAbsDelay d :=
  le_trans (abs_nonneg (d 0)) (abs_le_maxAbsDelay d 0)

theorem fuseWeight_nonneg (d : Fin 4 → ℝ) (denom : ℝ) (hden : 0 ≤ denom)
    (i : Fin 4) : 0 ≤ fuseWeight d denom i := by
  unfold fuseWeight
  split
  · exact div_nonneg (abs_nonneg _) hden
  · exact le_refl 0

theorem fuseTerm_eps (d : Fin 4 → ℝ) (i : Fin 4)
    (hden : 0 < maxAbsDelay d + 1e-10) :
    fuseTerm d (maxAbsDelay d + 1e-10) i =
      smulV (maxAbsDelay d / (maxAbsDelay d + 1e-10)) (fuseTerm d (maxAbsDelay d) i) := by
  unfold fuseTerm
  by_cases hgt : 1 < |d i|
  · rw [if_pos hgt, if_pos hgt]
    have hM : 0 < maxAbsDelay d :=
      lt_trans one_pos (lt_of_lt_of_le hgt (abs_le_maxAbsDelay d i))
    unfold smulV
    have h1 : maxAbsDelay d ≠ 0 := ne_of_gt hM
    have h2 : maxAbsDelay d + 1e-10 ≠ 0 := ne_of_gt hden
    refine Prod.ext ?_ ?_ <;> simp only <;> field_simp <;> ring_nf
  · rw [if_neg hgt, if_neg hgt]
    unfold smulV
    simp

theorem fuseWeight_eps (d : Fin 4 → ℝ) (i : Fin 4)
    (hden : 0 < maxAbsDelay d + 1e-10) :
    fuseWeight d (maxAbsDelay d + 1e-10) i =
      maxAbsDelay d / (maxAbsDelay d + 1e-10) * fuseWeight d (maxAbsDelay d) i := by
  unfold fuseWeight
  by_cases hgt : 1 < |d i|
  · rw [if_pos hgt, if_pos hgt]
    have hM : 0 < maxAbsDelay d :=
      lt_trans one_pos (lt_of_lt_of_le hgt (abs_le_maxAbsDelay d i))
    have h1 : maxAbsDelay d ≠ 0 := ne_of_gt hM
    have h2 : maxAbsDelay d + 1e-10 ≠ 0 := ne_of_gt hden
    field_simp
    ring
  · rw [if_neg hgt, if_neg hgt]
    simp

theorem fuseTotalWeight_pos_max (d : Fin 4 → ℝ) (denom : ℝ)
    (h : 0 < fuseTotalWeight d denom) : 1 < maxAbsDelay d := by
  by_contra hM
  have hz : ∀ i : Fin 4, fuseWeight d denom i = 0 := by
    intro i
    unfold fuseWeight
    rw [if_neg]
    intro hgt
    exact hM (lt_of_lt_of_le hgt (abs_le_maxAbsDelay d i))
  unfold fuseTotalWeight at h
  rw [hz 1, hz 2, hz 3] at h
  simp at h

/-! ## Claim theorems -/

/-- C9: the analysis-feeding queue (capacity 5) never grows past its
bound; an enqueue against a full queue drops the oldest element and admits
the newest at the back; dequeue only shrinks it. -/
theorem audioQueue_bounded_evicts_oldest (q : List (List Nat)) (x : List Nat)
    (h : q.length ≤ queueCapacity) :
    (enqueueDrop q x).length ≤ queueCapacity ∧
      (q.length = queueCapacity → enqueueDrop q x = q.drop 1 ++ [x]) ∧
      (enqueueDrop q x).getLast? = some x ∧
      (dequeueFront q).length ≤ queueCapacity := by
  have hcap : queueCapacity = 5 := rfl
  refine ⟨?_, ?_, ?_, ?_⟩
  · unfold enqueueDrop
    by_cases hlt : q.length < queueCapacity
    · rw [if_pos hlt]
      simp
      omega
    · rw [if_neg hlt]
      simp
      omega
  · intro he
    unfold enqueueDrop
    rw [if_neg (by omega)]
  · unfold enqueueDrop
    by_cases hlt : q.length < queueCapacity
    · rw [if_pos hlt]
      exact List.getLast?_concat q
    · rw [if_neg hlt]
      exact List.getLast?_concat _
  · unfold dequeueFront
    simp
    omega

/-- Witness for C9 at a concrete full queue. -/
theorem audioQueue_bounded_evicts_oldest_witness :
    (enqueueDrop [[0], [1], [2], [3], [4]] [5]).length ≤ queueCapacity ∧
      enqueueDrop [[0], [1], [2], [3], [4]] [5] = [[1], [2], [3], [4], [5]] := by
  have h := audioQueue_bounded_evicts_oldest [[0], [1], [2], [3], [4]] [5]
    (by decide)
  exact ⟨h.1, by decide⟩

/-- C8 counterexample: five consecutive non-200 responses exhaust the
retry counter, the reader loop exits (its guard is false), yet the shared
stop signal is never set — the claimed fatal shutdown of the pipeline is
not signalled on this path. -/
theorem readAudioStream_non200_exhaustion_no_fatal :
    (runReader initReader (List.replicate 5 .non200)).retryCount = maxRetries ∧
      (runReader initReader (List.replicate 5 .non200)).stopSignal = false ∧
      readerGuard (runReader initReader (List.replicate 5 .non200)) = false := by
  decide

/-- C8 as amended: the reader never performs more than `maxRetries = 5`
consecutive failed attempts (the retry counter never exceeds the cap and
the loop freezes once it reaches it); a successful connection resets the
counter to zero; reaching the cap through connection exceptions sets the
shared stop signal (fatal shutdown); reaching it through consecutive
non-200 responses makes the reader exit with the stop signal still
unset. -/
theorem readAudioStream_retry_policy :
    (∀ (s : ReaderState) (tr : List Outcome), s.retryCount ≤ maxRetries →
        (runReader s tr).retryCount ≤ maxRetries) ∧
      (∀ s : ReaderState, (stepReader s .okGraceful).retryCount = 0) ∧
      (runReader initReader (List.replicate maxRetries .connErr)).stopSignal
        = true ∧
      (∀ n : Nat, maxRetries ≤ n →
        runReader initReader (List.replicate n .non200) = ⟨maxRetries, false⟩) := by
  refine ⟨fun s tr h => runReader_count_le tr s h, fun s => rfl, by decide,
    fun n hn => ?_⟩
  have h0 := runReader_non200 n 0 (Nat.zero_le _)
  have hm : min maxRetries (0 + n) = maxRetries := by omega
  rw [show (initReader : ReaderState) = ⟨0, false⟩ from rfl, h0, hm]

/-- Witness for C8 at concrete traces. -/
theorem readAudioStream_retry_policy_witness :
    (runReader initReader [.non200, .connErr]).retryCount ≤ maxRetries ∧
      runReader initReader (List.replicate 7 .non200) = ⟨maxRetries, false⟩ := by
  exact ⟨readAudioStream_retry_policy.1 initReader [.non200, .connErr]
    (by decide), readAudioStream_retry_policy.2.2.2 7 (by decide)⟩

/-- C10: undersized raw input (fewer 16-bit samples than channels,
including the empty input) and the exception path (odd byte count makes
`np.frombuffer` raise) both produce exactly four channels of one zero
sample, and every input whatsoever yields four nonempty channels. -/
theorem parseAudioData_degenerate_inputs (gains : Fin 4 → ℚ) (raw : List Nat) :
    ((samplesOfBytes raw).length < numChannels →
        parseAudioData gains raw = defaultChannels) ∧
      (raw.length % 2 = 1 → parseAudioData gains raw = defaultChannels) ∧
      (parseAudioData gains raw).length = numChannels ∧
      (∀ c ∈ parseAudioData gains raw, c ≠ []) := by
  have hdefault : defaultChannels.length = numChannels ∧
      ∀ c ∈ defaultChannels, c ≠ [] := by
    refine ⟨by simp [defaultChannels, numChannels], ?_⟩
    intro c hc
    simp [defaultChannels] at hc
    simp [hc]
  by_cases hodd : raw.length % 2 = 0
  · by_cases hshort : (samplesOfBytes raw).length < numChannels
    · rw [parseAudioData_short gains raw hodd hshort]
      exact ⟨fun _ => rfl, fun h => absurd h (by omega), hdefault.1, hdefault.2⟩
    · rw [parseAudioData_main gains raw hodd hshort]
      refine ⟨fun h => absurd h hshort, fun h => absurd h (by omega),
        by simp [numChannels], ?_⟩
      intro c hc
      rw [List.mem_ofFn] at hc
      obtain ⟨i, hi⟩ := hc
      have hlen : c.length = (samplesOfBytes raw).length / numChannels := by
        rw [← hi]
        simp
      have hpos : 0 < (samplesOfBytes raw).length / numChannels := by
        have hle : numChannels ≤ (samplesOfBytes raw).length := by omega
        exact Nat.div_pos hle (by norm_num [numChannels])
      intro hnil
      rw [hnil] at hlen
      simp at hlen
      omega
  · rw [parseAudioData_odd gains raw hodd]
    exact ⟨fun _ => rfl, fun _ => rfl, hdefault.1, hdefault.2⟩

/-- Witness for C10 at concrete degenerate inputs. -/
theorem parseAudioData_degenerate_inputs_witness :
    parseAudioData unitGains [1] = defaultChannels ∧
      parseAudioData unitGains [] = defaultChannels ∧
      (parseAudioData unitGains [9, 9, 9, 9]).length = numChannels := by
  exact ⟨(parseAudioData_degenerate_inputs unitGains [1]).2.1 (by decide),
    (parseAudioData_degenerate_inputs unitGains []).1 (by decide),
    (parseAudioData_degenerate_inputs unitGains [9, 9, 9, 9]).2.2.1⟩

/-- C1 list facts: writing inside the buffer preserves its length. -/
theorem overwrite_length (buf data : List Nat) (pos : Nat)
    (h : pos + data.length ≤ buf.length) :
    (overwrite buf pos data).length = buf.length := by
  unfold overwrite
  simp only [List.length_append, List.length_take, List.length_drop]
  omega

theorem take_overwrite (buf data : List Nat) (pos : Nat)
    (h : pos ≤ buf.length) :
    (overwrite buf pos data).take (pos + data.length) = buf.take pos ++ data := by
  unfold overwrite
  have hlen : (buf.take pos ++ data).length = pos + data.length := by
    simp only [List.length_append, List.length_take]
    omega
  exact List.take_left' hlen

theorem overwrite_full (buf data : List Nat) (pos : Nat)
    (h : pos + data.length = buf.length) :
    overwrite buf pos data = buf.take pos ++ data := by
  unfold overwrite
  rw [h, List.drop_length, List.append_nil]

theorem overwrite_zero (buf data : List Nat) :
    overwrite buf 0 data = data ++ buf.drop data.length := by
  unfold overwrite
  simp

theorem initBB_wf (cap : Nat) (hcap : 0 < cap) : BBWf cap (initBB cap) :=
  ⟨by simp [initBB], by simp [initBB], hcap, rfl⟩

theorem writeChunk_preserves (cap : Nat) (s : BBState) (data : List Nat)
    (hcap : 0 < cap) (hd : data.length ≤ cap) (hwf : BBWf cap s) :
    BBWf cap (writeChunk s data).1 ∧
      (writeChunk s data).2.flatten ++ pendingBytes (writeChunk s data).1 =
        pendingBytes s ++ data ∧
      ∀ o ∈ (writeChunk s data).2, o.length = cap := by
  cases s with
  | mk A B pa pb sel =>
  cases sel with
  | true =>
      obtain ⟨hA, hB, hpa, hpb⟩ := hwf
      by_cases hle : data.length ≤ A.length - pa
      · by_cases hfull : A.length ≤ pa + data.length
        · have hw : writeChunk ⟨A, B, pa, pb, true⟩ data =
              (⟨overwrite A pa data, B, 0, pb, false⟩,
                [overwrite A pa data]) := by
            simp only [writeChunk, hle, hfull, reduceIte]
          have hexact : pa + data.length = A.length := by omega
          have hlenA : (overwrite A pa data).length = A.length :=
            overwrite_length A data pa (by omega)
          rw [hw]
          refine ⟨⟨hlenA.trans hA, hB, by omega, rfl⟩, ?_, ?_⟩
          · simp only [pendingBytes, List.flatten, hpb, List.take_zero,
              List.append_nil]
            rw [overwrite_full A data pa hexact]
          · intro o ho
            simp only [List.mem_singleton] at ho
            rw [ho, hlenA, hA]
        · have hw : writeChunk ⟨A, B, pa, pb, true⟩ data =
              (⟨overwrite A pa data, B, pa + data.length, pb, true⟩, []) := by
            simp only [writeChunk, hle, hfull, reduceIte]
          have hlenA : (overwrite A pa data).length = A.length :=
            overwrite_length A data pa (by omega)
          rw [hw]
          refine ⟨⟨hlenA.trans hA, hB, by omega, hpb⟩, ?_, ?_⟩
          · simp only [pendingBytes, List.flatten, List.nil_append]
            exact take_overwrite A data pa (by omega)
          · intro o ho
            simp at ho
      · have hw : writeChunk ⟨A, B, pa, pb, true⟩ data =
            (⟨overwrite A pa (data.take (A.length - pa)),
              overwrite B 0 (data.drop (A.length - pa)), 0,
              data.length - (A.length - pa), false⟩,
              [overwrite A pa (data.take (A.length - pa))]) := by
          simp only [writeChunk, hle, reduceIte]
        have hsp1 : 1 ≤ A.length - pa := by omega
        have htb : (data.take (A.length - pa)).length = A.length - pa := by
          simp only [List.length_take]
          omega
        have hfullA : overwrite A pa (data.take (A.length - pa)) =
            A.take pa ++ data.take (A.length - pa) :=
          overwrite_full A _ pa (by omega)
        have hlenA2 : (overwrite A pa (data.take (A.length - pa))).length
            = A.length := by
          rw [hfullA]
          simp only [List.length_append, List.length_take]
          omega
        have hrem : (data.drop (A.length - pa)).length =
            data.length - (A.length - pa) := by
          simp only [List.length_drop]
        rw [hw]
        refine ⟨⟨hlenA2.trans hA, ?_, by omega, rfl⟩, ?_, ?_⟩
        · rw [overwrite_zero, hrem]
          simp only [List.length_append, List.length_drop, hB]
          omega
        · simp only [pendingBytes, List.flatten, List.append_nil]
          rw [overwrite_zero, hrem, List.take_left' hrem, hfullA,
            List.append_assoc, List.take_append_drop]
        · intro o ho
          simp only [List.mem_singleton] at ho
          rw [ho, hlenA2, hA]
  | false =>
      obtain ⟨hA, hB, hpb, hpa⟩ := hwf
      by_cases hle : data.length ≤ B.length - pb
      · by_cases hfull : B.length ≤ pb + data.length
        · have hw : writeChunk ⟨A, B, pa, pb, false⟩ data =
              (⟨A, overwrite B pb data, pa, 0, true⟩,
                [overwrite B pb data]) := by
            simp only [writeChunk, hle, hfull, reduceIte]
          have hexact : pb + data.length = B.length := by omega
          have hlenB : (overwrite B pb data).length = B.length :=
            overwrite_length B data pb (by omega)
          rw [hw]
          refine ⟨⟨hA, hlenB.trans hB, by omega, rfl⟩, ?_, ?_⟩
          · simp only [pendingBytes, List.flatten, hpa, List.take_zero,
              List.append_nil]
            rw [overwrite_full B data pb hexact]
          · intro o ho
            simp only [List.mem_singleton] at ho
            rw [ho, hlenB, hB]
        · have hw : writeChunk ⟨A, B, pa, pb, false⟩ data =
              (⟨A, overwrite B pb data, pa, pb + data.length, false⟩, []) := by
            simp only [writeChunk, hle, hfull, reduceIte]
          have hlenB : (overwrite B pb data).length = B.length :=
            overwrite_length B data pb (by omega)
          rw [hw]
          refine ⟨⟨hA, hlenB.trans hB, by omega, hpa⟩, ?_, ?_⟩
          · simp only [pendingBytes, List.flatten, List.nil_append]
            exact take_overwrite B data pb (by omega)
          · intro o ho
            simp at ho
      · have hw : writeChunk ⟨A, B, pa, pb, false⟩ data =
            (⟨overwrite A 0 (data.drop (B.length - pb)),
              overwrite B pb (data.take (B.length - pb)),
              data.length - (B.length - pb), 0, true⟩,
              [overwrite B pb (data.take (B.length - pb))]) := by
          simp only [writeChunk, hle, reduceIte]
        have hsp1 : 1 ≤ B.length - pb := by omega
        have htb : (data.take (B.length - pb)).length = B.length - pb := by
          simp only [List.length_take]
          omega
        have hfullB : overwrite B pb (data.take (B.length - pb)) =
            B.take pb ++ data.take (B.length - pb) :=
          overwrite_full B _ pb (by omega)
        have hlenB2 : (overwrite B pb (data.take (B.length - pb))).length
            = B.length := by
          rw [hfullB]
          simp only [List.length_append, List.length_take]
          omega
        have hrem : (data.drop (B.length - pb)).length =
            data.length - (B.length - pb) := by
          simp only [List.length_drop]
        rw [hw]
        refine ⟨⟨?_, hlenB2.trans hB, by omega, rfl⟩, ?_, ?_⟩
        · rw [overwrite_zero, hrem]
          simp only [List.length_append, List.length_drop, hA]
          omega
        · simp only [pendingBytes, List.flatten, List.append_nil]
          rw [overwrite_zero, hrem, List.take_left' hrem, hfullB,
            List.append_assoc, List.take_append_drop]
        · intro o ho
          simp only [List.mem_singleton] at ho
          rw [ho, hlenB2, hB]

theorem writeAll_correct (cap : Nat) (ws : List (List Nat)) (s : BBState)
    (hcap : 0 < cap) (hws : ∀ w ∈ ws, w.length ≤ cap) (hwf : BBWf cap s) :
    BBWf cap (writeAll s ws).1 ∧
      (writeAll s ws).2.flatten ++ pendingBytes (writeAll s ws).1 =
        pendingBytes s ++ ws.flatten ∧
      ∀ o ∈ (writeAll s ws).2, o.length = cap := by
  induction ws generalizing s with
  | nil => simp [writeAll, hwf]
  | cons w ws ih =>
      have hw : w.length ≤ cap := hws w (by simp)
      have hws2 : ∀ x ∈ ws, x.length ≤ cap := fun x hx => hws x (by simp [hx])
      have hstep := writeChunk_preserves cap s w hcap hw hwf
      have hrest := ih (writeChunk s w).1 hws2 hstep.1
      refine ⟨?_, ?_, ?_⟩
      · simpa [writeAll] using hrest.1
      · simp only [writeAll, List.flatten_append, List.append_assoc,
          List.flatten_cons]
        rw [hrest.2.1, ← List.append_assoc, hstep.2.1]
        simp
      · intro o ho
        simp only [writeAll, List.mem_append] at ho
        rcases ho with ho | ho
        · exact hstep.2.2 o ho
        · exact hrest.2.2 o ho

/-- C1: producer writes are split at buffer boundaries with the excess
carried into the newly active buffer at cursor equal to the carried
length, the selector flipping in between, and the completed buffers
(those served to a reader, in flip order) together with the not yet
flipped remainder reconstruct the producer byte stream exactly — no byte
dropped, duplicated or reordered. -/
theorem broadcastBuffer_stream_reconstruction (cap : Nat)
    (ws : List (List Nat)) (hcap : 0 < cap)
    (hws : ∀ w ∈ ws, w.length ≤ cap) :
    ((writeAll (initBB cap) ws).2.flatten ++
        pendingBytes (writeAll (initBB cap) ws).1 = ws.flatten) ∧
      (∀ o ∈ (writeAll (initBB cap) ws).2, o.length = cap) ∧
      (∀ (A B : List Nat) (pa pb : Nat) (data : List Nat),
        BBWf cap ⟨A, B, pa, pb, true⟩ → data.length ≤ cap →
        A.length - pa < data.length →
          (writeChunk ⟨A, B, pa, pb, true⟩ data).1.sel = false ∧
          (writeChunk ⟨A, B, pa, pb, true⟩ data).1.posB =
            data.length - (A.length - pa) ∧
          pendingBytes (writeChunk ⟨A, B, pa, pb, true⟩ data).1 =
            data.drop (A.length - pa) ∧
          (writeChunk ⟨A, B, pa, pb, true⟩ data).2 =
            [overwrite A pa (data.take (A.length - pa))]) := by
  have hmain := writeAll_correct cap ws (initBB cap) hcap hws (initBB_wf cap hcap)
  refine ⟨?_, hmain.2.2, ?_⟩
  · have hpend : pendingBytes (initBB cap) = [] := by
      simp [initBB, pendingBytes]
    rw [hmain.2.1, hpend, List.nil_append]
  · intro A B pa pb data hwf hd hover
    obtain ⟨hA, hB, hpa, hpb⟩ := hwf
    have hle : ¬ data.length ≤ A.length - pa := by omega
    have hw : writeChunk ⟨A, B, pa, pb, true⟩ data =
        (⟨overwrite A pa (data.take (A.length - pa)),
          overwrite B 0 (data.drop (A.length - pa)), 0,
          data.length - (A.length - pa), false⟩,
          [overwrite A pa (data.take (A.length - pa))]) := by
      simp only [writeChunk, hle, reduceIte]
    rw [hw]
    have hrem : (data.drop (A.length - pa)).length =
        data.length - (A.length - pa) := by
      simp only [List.length_drop]
    refine ⟨rfl, rfl, ?_, rfl⟩
    simp only [pendingBytes]
    rw [overwrite_zero, hrem, List.take_left' hrem]

/-- Witness for C1: capacity 4, two 3-byte writes; the reader-served
buffer plus the pending remainder reconstruct the 6-byte stream, and a
concrete overflowing write lands with the carried cursor. -/
theorem broadcastBuffer_stream_reconstruction_witness :
    ((writeAll (initBB 4) [[1, 2, 3], [4, 5, 6]]).2.flatten ++
        pendingBytes (writeAll (initBB 4) [[1, 2, 3], [4, 5, 6]]).1 =
      [1, 2, 3, 4, 5, 6]) ∧
      (writeChunk ⟨[0, 0, 0, 0], [9, 9, 9, 9], 2, 0, true⟩ [5, 6, 7]).1.posB
        = 1 := by
  have h := broadcastBuffer_stream_reconstruction 4 [[1, 2, 3], [4, 5, 6]]
    (by decide) (by decide)
  refine ⟨h.1.trans (by decide), ?_⟩
  have h2 := (h.2.2 [0, 0, 0, 0] [9, 9, 9, 9] 2 0 [5, 6, 7]
    ⟨rfl, rfl, by decide, rfl⟩ (by decide) (by decide)).2.1
  simpa using h2

/-- C3 counterexample: a 10-byte frame decodes to 5 samples, which is not
divisible by the 4 channels.  The claim requires a `MisalignedFrame`
failure with no silent truncation (as the spec-side demuxer indeed does),
but `parse_audio_data` returns four one-sample channels — the fifth sample
is silently dropped and no error is ever surfaced. -/
theorem parseAudioData_truncates_misaligned :
    (samplesOfBytes [1, 0, 2, 0, 3, 0, 4, 0, 5, 0]).length = 5 ∧
      (samplesOfBytes [1, 0, 2, 0, 3, 0, 4, 0, 5, 0]).length % numChannels ≠ 0 ∧
      (parseAudioData unitGains [1, 0, 2, 0, 3, 0, 4, 0, 5, 0]).map
        List.length = [1, 1, 1, 1] ∧
      ((parseAudioData unitGains [1, 0, 2, 0, 3, 0, 4, 0, 5, 0]).map
        List.length).sum = 4 ∧
      channelDemuxerSpec unitGains [1, 0, 2, 0, 3, 0, 4, 0, 5, 0] =
        Except.error MisalignedFrame.mk := by
  refine ⟨by decide, by decide, by decide, by decide, ?_⟩
  rfl

/-- C3 as amended: for frames whose sample count is divisible by the
channel count (and at least one full sample row) the channel lengths sum
exactly to the input sample count with each sample appearing once in
stride order; a non-divisible sample count is silently truncated to the
largest multiple of the channel count, with no error surfaced. -/
theorem parseAudioData_stride (gains : Fin 4 → ℚ) (raw : List Nat)
    (heven : raw.length % 2 = 0)
    (hge : numChannels ≤ (samplesOfBytes raw).length) :
    ((parseAudioData gains raw).map List.length).sum =
      (samplesOfBytes raw).length -
        (samplesOfBytes raw).length % numChannels ∧
      ((samplesOfBytes raw).length % numChannels = 0 →
        ((parseAudioData gains raw).map List.length).sum =
          (samplesOfBytes raw).length) ∧
      (∀ (i : Fin 4) (k : Nat),
        k < (samplesOfBytes raw).length / numChannels →
        ((parseAudioData gains raw).getD (i : Nat) []).getD k 0 =
          (((samplesOfBytes raw).getD (k * numChannels + (i : Nat)) 0 : ℤ) : ℚ)
            * gains i) := by
  have h4 : numChannels = 4 := rfl
  rw [parseAudioData_main gains raw heven (by omega)]
  simp only [h4] at hge ⊢
  have hsum : ((List.ofFn fun i : Fin 4 =>
      (List.range ((samplesOfBytes raw).length / 4)).map fun k =>
        ((((samplesOfBytes raw).take
            ((samplesOfBytes raw).length / 4 * 4)).getD
          (k * 4 + (i : Nat)) 0 : ℤ) : ℚ) * gains i).map
        List.length).sum = 4 * ((samplesOfBytes raw).length / 4) := by
    simp [List.ofFn_succ]
    ring
  refine ⟨?_, ?_, ?_⟩
  · rw [hsum]
    omega
  · intro hdvd
    rw [hsum]
    omega
  · intro i k hk
    have hgetD : ((List.ofFn fun i : Fin 4 =>
        (List.range ((samplesOfBytes raw).length / 4)).map fun k =>
          ((((samplesOfBytes raw).take
              ((samplesOfBytes raw).length / 4 * 4)).getD
            (k * 4 + (i : Nat)) 0 : ℤ) : ℚ) * gains i).getD
          (i : Nat) []) =
        (List.range ((samplesOfBytes raw).length / 4)).map fun k =>
          ((((samplesOfBytes raw).take
              ((samplesOfBytes raw).length / 4 * 4)).getD
            (k * 4 + (i : Nat)) 0 : ℤ) : ℚ) * gains i := by
      fin_cases i <;> rfl
    rw [hgetD]
    have hmap : (((List.range ((samplesOfBytes raw).length / 4)).map fun k =>
        ((((samplesOfBytes raw).take
            ((samplesOfBytes raw).length / 4 * 4)).getD
          (k * 4 + (i : Nat)) 0 : ℤ) : ℚ) * gains i).getD k 0) =
        ((((samplesOfBytes raw).take
            ((samplesOfBytes raw).length / 4 * 4)).getD
          (k * 4 + (i : Nat)) 0 : ℤ) : ℚ) * gains i := by
      rw [List.getD_eq_getElem?_getD, List.getElem?_map,
        List.getElem?_range hk]
      rfl
    rw [hmap]
    have hidx : k * 4 + (i : Nat) <
        (samplesOfBytes raw).length / 4 * 4 := by
      have hi : (i : Nat) < 4 := i.isLt
      omega
    have htake : (((samplesOfBytes raw).take
        ((samplesOfBytes raw).length / 4 * 4)).getD
        (k * 4 + (i : Nat)) 0) =
        ((samplesOfBytes raw).getD (k * 4 + (i : Nat)) 0) := by
      rw [List.getD_eq_getElem?_getD, List.getD_eq_getElem?_getD,
        List.getElem?_take, if_pos hidx]
    rw [htake]

/-- Witness for C3 as amended at a concrete aligned 4-sample frame. -/
theorem parseAudioData_stride_witness :
    ((parseAudioData unitGains [1, 0, 2, 0, 3, 0, 4, 0]).map
        List.length).sum = (samplesOfBytes [1, 0, 2, 0, 3, 0, 4, 0]).length := by
  exact (parseAudioData_stride unitGains [1, 0, 2, 0, 3, 0, 4, 0]
    (by decide) (by decide)).2.1 (by decide)

/-- C5: the DirectionFuser returns the zero vector immediately when
inactive; when active, only mics with delay magnitude above one sample
contribute `sign * weight * (pos_i - pos_0)` with
`weight = abs delay / max abs delay` (the epsilon the code adds to the
denominator rescales all weights by one common positive factor, so the
emitted direction is exactly the claimed one); the result is the
normalized accumulated vector when the total weight is positive and the
accumulated norm nonzero, and exactly the zero vector otherwise. -/
theorem tdoaToDirection_matches_claim (d : Fin 4 → ℝ) (active : Bool) :
    tdoaToDirection d active = directionFuserClaim d active := by
  cases active with
  | false => rfl
  | true =>
      unfold tdoaToDirection directionFuserClaim
      rw [if_neg (by simp : ¬(true = false)),
        if_neg (by simp : ¬(true = false))]
      have hden : 0 < maxAbsDelay d + 1e-10 := by
        have hnn := maxAbsDelay_nonneg d
        have heps : (0 : ℝ) < 1e-10 := by norm_num
        linarith
      have hdir : fuseDir d (maxAbsDelay d + 1e-10) =
          smulV (maxAbsDelay d / (maxAbsDelay d + 1e-10))
            (fuseDir d (maxAbsDelay d)) := by
        unfold fuseDir
        rw [fuseTerm_eps d 1 hden, fuseTerm_eps d 2 hden,
          fuseTerm_eps d 3 hden, ← smulV_addV, ← smulV_addV]
      have htw : fuseTotalWeight d (maxAbsDelay d + 1e-10) =
          maxAbsDelay d / (maxAbsDelay d + 1e-10) *
            fuseTotalWeight d (maxAbsDelay d) := by
        unfold fuseTotalWeight
        rw [fuseWeight_eps d 1 hden, fuseWeight_eps d 2 hden,
          fuseWeight_eps d 3 hden]
        ring
      rw [hdir, htw]
      have htwnn : 0 ≤ fuseTotalWeight d (maxAbsDelay d) := by
        unfold fuseTotalWeight
        have h1 := fuseWeight_nonneg d (maxAbsDelay d) (maxAbsDelay_nonneg d) 1
        have h2 := fuseWeight_nonneg d (maxAbsDelay d) (maxAbsDelay_nonneg d) 2
        have h3 := fuseWeight_nonneg d (maxAbsDelay d) (maxAbsDelay_nonneg d) 3
        linarith
      by_cases hcond : 0 < fuseTotalWeight d (maxAbsDelay d)
      · have hM1 : 1 < maxAbsDelay d := fuseTotalWeight_pos_max d _ hcond
        have hcpos : 0 < maxAbsDelay d / (maxAbsDelay d + 1e-10) :=
          div_pos (lt_trans one_pos hM1) hden
        rw [norm2_smul _ hcpos.le]
        have hiff : ∀ x : ℝ,
            (0 < maxAbsDelay d / (maxAbsDelay d + 1e-10) * x ↔ 0 < x) := by
          intro x
          constructor
          · intro h
            rcases mul_pos_iff.mp h with ⟨_, hb⟩ | ⟨hneg, _⟩
            · exact hb
            · exact absurd hcpos (not_lt.mpr hneg.le)
          · exact fun h => mul_pos hcpos h
        refine if_congr (and_congr (hiff _) (hiff _))
          (normalizeV_smul _ hcpos _) rfl
      · have htws0 : fuseTotalWeight d (maxAbsDelay d) = 0 :=
          le_antisymm (not_lt.mp hcond) htwnn
        rw [htws0]
        simp

theorem norm2_pos (v : ℝ × ℝ) : 0 < norm2 v ↔ v ≠ (0, 0) := by
  unfold norm2
  rw [Real.sqrt_pos]
  constructor
  · intro h he
    rw [he] at h
    norm_num at h
  · intro hv
    rcases lt_or_eq_of_le (add_nonneg (sq_nonneg v.1) (sq_nonneg v.2)) with h | h
    · exact h
    · exfalso
      apply hv
      have h1 : v.1 ^ 2 = 0 := by nlinarith [sq_nonneg v.1, sq_nonneg v.2]
      have h2 : v.2 ^ 2 = 0 := by nlinarith [sq_nonneg v.1, sq_nonneg v.2]
      rw [Prod.ext_iff]
      exact ⟨pow_eq_zero_iff (by norm_num) |>.mp h1,
        pow_eq_zero_iff (by norm_num) |>.mp h2⟩

theorem norm2_zero_of_not_pos (v : ℝ × ℝ) (h : ¬ 0 < norm2 v) :
    v = (0, 0) := by
  by_contra hv
  exact h ((norm2_pos v).mpr hv)

theorem pushEvict_length (buf : List (ℝ × ℝ)) (dir : ℝ × ℝ)
    (h : buf.length ≤ smootherCapacity) :
    (pushEvict buf dir).length ≤ smootherCapacity := by
  unfold pushEvict
  by_cases hlt : smootherCapacity < (buf ++ [dir]).length
  · rw [if_pos hlt]
    rw [List.length_drop]
    have hlen : (buf ++ [dir]).length = buf.length + 1 := by simp
    rw [hlen]
    exact le_trans (by omega : buf.length + 1 - 1 ≤ buf.length) h
  · rw [if_neg hlt]
    simp only [not_lt] at hlt
    exact hlt

theorem pushEvict_ne_nil (buf : List (ℝ × ℝ)) (dir : ℝ × ℝ) :
    pushEvict buf dir ≠ [] := by
  unfold pushEvict
  by_cases hlt : smootherCapacity < (buf ++ [dir]).length
  · rw [if_pos hlt]
    intro hnil
    have hlen := congrArg List.length hnil
    rw [List.length_drop] at hlen
    have hl2 : (buf ++ [dir]).length = buf.length + 1 := by simp
    rw [hl2] at hlen hlt
    have hcap : smootherCapacity = 5 := rfl
    rw [hcap] at hlt
    simp only [List.length_nil] at hlen
    omega
  · rw [if_neg hlt]
    simp

/-- C2 counterexample: after an active frame with direction (1,0), an
inactive frame does not clear the smoothing window, so the next active
frame with direction (0,1) emits a blend of (1,0) and (0,1) instead of
the claimed (0,1) — and the window after the inactive frame is nonempty. -/
theorem temporalSmoother_inactive_keeps_history :
    (runSmoother [] [(true, ((1 : ℝ), (0 : ℝ))), (false, (0, 0)),
        (true, (0, 1))]).2.getD 2 (0, 0) ≠ ((0 : ℝ), (1 : ℝ)) ∧
      (runSmoother [] [(true, ((1 : ℝ), (0 : ℝ))), (false, (0, 0))]).1 ≠ [] := by
  have hne10 : ((1 : ℝ), (0 : ℝ)) ≠ (0, 0) := by
    simp [Prod.ext_iff]
  have hpos10 : 0 < norm2 (1, 0) := (norm2_pos _).mpr hne10
  have hne01 : ((0 : ℝ), (1 : ℝ)) ≠ (0, 0) := by
    simp [Prod.ext_iff]
  have hpos01 : 0 < norm2 (0, 1) := (norm2_pos _).mpr hne01
  have hpe1 : pushEvict [] ((1 : ℝ), (0 : ℝ)) = [(1, 0)] := by
    simp [pushEvict, smootherCapacity]
  have hmean1 : meanV [((1 : ℝ), (0 : ℝ))] = (1, 0) := by
    norm_num [meanV]
  have hn1 : normalizeV ((1 : ℝ), (0 : ℝ)) = (1, 0) := by
    have : norm2 ((1 : ℝ), (0 : ℝ)) = 1 := by
      unfold norm2
      norm_num
    simp [normalizeV, this]
  have hstep1 : smootherStep [] true ((1 : ℝ), (0 : ℝ)) = ([(1, 0)], (1, 0)) := by
    unfold smootherStep
    rw [if_neg (by simp : ¬(true = false)), if_pos hpos10, hpe1]
    rw [if_pos (by simp : 0 < ([((1 : ℝ), (0 : ℝ))]).length), hmean1,
      if_pos hpos10, hn1]
  have hstep2 : smootherStep [((1 : ℝ), (0 : ℝ))] false (0, 0) =
      ([(1, 0)], (0, 0)) := by
    unfold smootherStep
    rw [if_pos rfl]
  have hmean3 : meanV [((1 : ℝ), (0 : ℝ)), (0, 1)] = (1 / 2, 1 / 2) := by
    norm_num [meanV]
  have hposmean : 0 < norm2 ((1 : ℝ) / 2, (1 : ℝ) / 2) :=
    (norm2_pos _).mpr (by norm_num [Prod.ext_iff])
  have hpe3 : pushEvict [((1 : ℝ), (0 : ℝ))] (0, 1) = [(1, 0), (0, 1)] := by
    simp [pushEvict, smootherCapacity]
  have hstep3 : smootherStep [((1 : ℝ), (0 : ℝ))] true (0, 1) =
      ([(1, 0), (0, 1)], normalizeV (1 / 2, 1 / 2)) := by
    unfold smootherStep
    rw [if_neg (by simp : ¬(true = false)), if_pos hpos01, hpe3]
    rw [if_pos (by simp : 0 < ([((1 : ℝ), (0 : ℝ)), (0, 1)]).length), hmean3,
      if_pos hposmean]
  refine ⟨?_, ?_⟩
  · have hrun : (runSmoother [] [(true, ((1 : ℝ), (0 : ℝ))), (false, (0, 0)),
        (true, (0, 1))]).2 = [(1, 0), (0, 0), normalizeV (1 / 2, 1 / 2)] := by
      simp only [runSmoother, hstep1, hstep2, hstep3]
    rw [hrun]
    intro heq
    have hfst := congrArg Prod.fst heq
    simp only [List.getD, normalizeV] at hfst
    have : (1 : ℝ) / 2 / norm2 (1 / 2, 1 / 2) = 0 := hfst
    rcases div_eq_zero_iff.mp this with h | h
    · norm_num at h
    · exact absurd h (ne_of_gt hposmean)
  · have hrun2 : (runSmoother [] [(true, ((1 : ℝ), (0 : ℝ))),
        (false, (0, 0))]).1 = [(1, 0)] := by
      simp only [runSmoother, hstep1, hstep2]
    rw [hrun2]
    simp

/-- C2 as amended: an inactive estimate leaves the smoothing window
unchanged and emits the zero vector (stale history persists across
silence); the window is cleared only when an active estimate carries the
zero direction; an active nonzero estimate is pushed (evicting the oldest
entry past capacity 5) and the emitted value is the window mean
renormalized to unit length, or the zero vector when the mean is zero;
the window never grows past its capacity. -/
theorem temporalSmoother_behavior (buf : List (ℝ × ℝ)) (dir : ℝ × ℝ) :
    (smootherStep buf false dir = (buf, (0, 0))) ∧
      (smootherStep buf true (0, 0) = ([], (0, 0))) ∧
      (dir ≠ (0, 0) →
        smootherStep buf true dir =
          (pushEvict buf dir,
            if 0 < norm2 (meanV (pushEvict buf dir)) then
              normalizeV (meanV (pushEvict buf dir))
            else (0, 0))) ∧
      (∀ active : Bool, buf.length ≤ smootherCapacity →
        (smootherStep buf active dir).1.length ≤ smootherCapacity) := by
  refine ⟨?_, ?_, ?_, ?_⟩
  · unfold smootherStep
    rw [if_pos rfl]
  · unfold smootherStep
    rw [if_neg (by simp : ¬(true = false)),
      if_neg (by simp [norm2, Real.sqrt_eq_zero] : ¬ 0 < norm2 ((0 : ℝ), (0 : ℝ)))]
  · intro hdir
    unfold smootherStep
    rw [if_neg (by simp : ¬(true = false)), if_pos ((norm2_pos dir).mpr hdir)]
    have hlen : 0 < (pushEvict buf dir).length :=
      List.length_pos.mpr (pushEvict_ne_nil buf dir)
    rw [if_pos hlen]
    by_cases hm : 0 < norm2 (meanV (pushEvict buf dir))
    · rw [if_pos hm, if_pos hm]
    · rw [if_neg hm, if_neg hm]
      rw [norm2_zero_of_not_pos _ hm]
  · intro active hb
    cases active with
    | false =>
        unfold smootherStep
        rw [if_pos rfl]
        exact hb
    | true =>
        unfold smootherStep
        rw [if_neg (by simp : ¬(true = false))]
        by_cases hd : 0 < norm2 dir
        · rw [if_pos hd]
          exact pushEvict_length buf dir hb
        · rw [if_neg hd]
          simp [smootherCapacity]

/-- Witness for C2 as amended at a concrete window and estimate. -/
theorem temporalSmoother_behavior_witness :
    smootherStep [] true ((1 : ℝ), (0 : ℝ)) =
      (pushEvict [] ((1 : ℝ), (0 : ℝ)),
        if 0 < norm2 (meanV (pushEvict [] ((1 : ℝ), (0 : ℝ)))) then
          normalizeV (meanV (pushEvict [] ((1 : ℝ), (0 : ℝ))))
        else (0, 0)) ∧
      (smootherStep [((2 : ℝ), (0 : ℝ))] true ((1 : ℝ), (0 : ℝ))).1.length ≤
        smootherCapacity := by
  exact ⟨(temporalSmoother_behavior [] ((1 : ℝ), (0 : ℝ))).2.2.1
      (by simp [Prod.ext_iff]),
    (temporalSmoother_behavior [((2 : ℝ), (0 : ℝ))] ((1 : ℝ), (0 : ℝ))).2.2.2
      true (by simp [smootherCapacity])⟩

theorem lfilterGo_length (b a : List ℝ) (xs pIn pOut : List ℝ) :
    (lfilterGo b a xs pIn pOut).length = xs.length := by
  induction xs generalizing pIn pOut with
  | nil => rfl
  | cons x xs ih => simp [lfilterGo, ih]

theorem lfilter_length (b a x : List ℝ) : (lfilter b a x).length = x.length :=
  lfilterGo_length b a x [] []

/-- C7 counterexample: processing two frames performs two filter-design
computations (one `signal.butter` call inside `apply_bandpass_filter` per
frame), not one computed at startup and reused. -/
theorem bandpass_coeffs_recomputed_per_frame :
    ¬ (processFramesBandpass trivialDesign 300 3000 [[[1]], [[1]]]).2 ≤ 1 := by
  norm_num [processFramesBandpass, applyBandpassFilterInstr]

/-- C7 as amended: the filter coefficients are recomputed on every frame
(the instrumented loop performs exactly one design computation per frame),
but each recomputation yields the same pair, a function only of the fixed
sample rate and the two cutoffs, so every frame is filtered with identical
coefficients; the filtered output has the same number of channels, each of
the same length as its input channel, in the same order. -/
theorem bandpass_deterministic_shape (fd : FilterDesign)
    (lowFreq highFreq : ℝ) (frames : List (List (List ℝ)))
    (channels : List (List ℝ)) :
    ((processFramesBandpass fd lowFreq highFreq frames).2 = frames.length) ∧
      ((processFramesBandpass fd lowFreq highFreq frames).1 =
        frames.map fun f => applyBandpassFilter fd f lowFreq highFreq) ∧
      (applyBandpassFilter fd channels lowFreq highFreq =
        channels.map (lfilter (bandpassCoeffs fd lowFreq highFreq).1
          (bandpassCoeffs fd lowFreq highFreq).2)) ∧
      ((applyBandpassFilter fd channels lowFreq highFreq).length =
        channels.length) ∧
      (∀ i : Nat, ((applyBandpassFilter fd channels lowFreq highFreq).getD i
          []).length = (channels.getD i []).length) := by
  have hshape : applyBandpassFilter fd channels lowFreq highFreq =
      channels.map (lfilter (bandpassCoeffs fd lowFreq highFreq).1
        (bandpassCoeffs fd lowFreq highFreq).2) := rfl
  refine ⟨?_, ?_, hshape, ?_, ?_⟩
  · induction frames with
    | nil => rfl
    | cons f fs ih =>
        simp [processFramesBandpass, applyBandpassFilterInstr, ih]
        omega
  · induction frames with
    | nil => rfl
    | cons f fs ih => simp [processFramesBandpass, applyBandpassFilterInstr, ih]
  · rw [hshape, List.length_map]
  · intro i
    rw [hshape]
    by_cases hi : i < channels.length
    · rw [List.getD_eq_getElem?_getD, List.getD_eq_getElem?_getD,
        List.getElem?_map, List.getElem?_eq_getElem hi]
      simp [lfilter_length]
    · have hnone : channels[i]? = none := by
        rw [List.getElem?_eq_none_iff]
        omega
      have hnone2 : (channels.map (lfilter (bandpassCoeffs fd lowFreq highFreq).1
          (bandpassCoeffs fd lowFreq highFreq).2))[i]? = none := by
        rw [List.getElem?_eq_none_iff]
        rw [List.length_map]
        omega
      rw [List.getD_eq_getElem?_getD, List.getD_eq_getElem?_getD, hnone, hnone2]

/-- C6: a channel pair where either signal has fewer than 10 samples gets
delay 0 without any correlation; the numeric-exception path (the one numpy
operation in the function that can raise: the shape-mismatched window
product when signal2 is shorter than signal1) also yields 0; and each TDOA
entry depends only on the reference channel and its own channel, so a bad
pair cannot halt estimation for the remaining pairs. -/
theorem tdoa_pair_guard_and_isolation :
    (∀ s1 s2 : List ℝ, s1.length < 10 ∨ s2.length < 10 →
        computeCrossCorrelation s1 s2 = 0) ∧
      (∀ s1 s2 : List ℝ, s2.length < s1.length →
        computeCrossCorrelation s1 s2 = 0) ∧
      (∀ (chs : List (List ℝ)) (i : Nat), 0 < i → i < chs.length →
        (estimateTdoa chs).getD i 0 =
          ((computeCrossCorrelation (chs.getD 0 []) (chs.getD i []) : Int) :
            ℝ)) := by
  refine ⟨?_, ?_, ?_⟩
  · intro s1 s2 h
    unfold computeCrossCorrelation
    rw [if_pos h]
  · intro s1 s2 h
    unfold computeCrossCorrelation
    by_cases hg : s1.length < 10 ∨ s2.length < 10
    · rw [if_pos hg]
    · rw [if_neg hg, if_pos h]
  · intro chs i hi hilen
    unfold estimateTdoa
    rw [List.getD_eq_getElem?_getD, List.getElem?_map,
      List.getElem?_range hilen]
    simp only [Option.map_some', Option.getD_some]
    rw [if_neg (by omega)]

/-- Witness for C6 at concrete degenerate channel lists. -/
theorem tdoa_pair_guard_and_isolation_witness :
    computeCrossCorrelation [] [] = 0 ∧
      computeCrossCorrelation [0, 0, 0, 0, 0, 0, 0, 0, 0, 0] [] = 0 ∧
      (estimateTdoa [[], []]).getD 1 0 =
        ((computeCrossCorrelation ([] : List ℝ) [] : Int) : ℝ) := by
  exact ⟨tdoa_pair_guard_and_isolation.1 [] [] (Or.inl (by decide)),
    tdoa_pair_guard_and_isolation.2.1 [0, 0, 0, 0, 0, 0, 0, 0, 0, 0] []
      (by decide),
    tdoa_pair_guard_and_isolation.2.2 [[], []] 1 (by decide) (by decide)⟩

/-! ## GCC-PHAT evaluation lemmas for the C4 counterexample -/

theorem hannW_ten_one_pos : 0 < hannW 10 1 := by
  unfold hannW
  have hx : 2 * Real.pi * ((1 : ℕ) : ℝ) / (((10 : ℕ) : ℝ) - 1) =
      2 * Real.pi / 9 := by
    push_cast
    ring
  rw [hx]
  have hpi := Real.pi_pos
  have h1 : -(2 * Real.pi) < 2 * Real.pi / 9 := by linarith
  have h2 : 2 * Real.pi / 9 < 2 * Real.pi := by linarith
  have hne : 2 * Real.pi / 9 ≠ 0 := by positivity
  have hcos : Real.cos (2 * Real.pi / 9) < 1 := by
    rcases lt_or_eq_of_le (Real.cos_le_one (2 * Real.pi / 9)) with h | h
    · exact h
    · exact absurd ((Real.cos_eq_one_iff_of_lt_of_lt h1 h2).mp h) hne
  linarith

theorem sum_getD_cons (a : ℝ) (l : List ℝ) (g : ℕ → ℂ) (n : ℕ) :
    ∑ j ∈ Finset.range (n + 1), ((a :: l).getD j 0 : ℝ) * g j =
      (a : ℂ) * g 0 +
        ∑ j ∈ Finset.range n, ((l.getD j 0 : ℝ) : ℂ) * g (j + 1) := by
  rw [Finset.sum_range_succ']
  simp only [List.getD_cons_succ, List.getD_cons_zero]
  exact add_comm _ _

theorem sum_exp_pow_ten (j : ℕ) (hj : j < 10) :
    ∑ k ∈ Finset.range 10,
      Complex.exp (2 * (Real.pi : ℂ) * Complex.I * j / 10) ^ k =
      if j = 0 then 10 else 0 := by
  by_cases hj0 : j = 0
  · subst hj0
    simp
  · rw [if_neg hj0]
    have hpi : (Real.pi : ℂ) ≠ 0 := by
      exact_mod_cast Real.pi_ne_zero
    have hI : Complex.I ≠ 0 := Complex.I_ne_zero
    have hne : Complex.exp (2 * (Real.pi : ℂ) * Complex.I * j / 10) ≠ 1 := by
      rw [Ne, Complex.exp_eq_one_iff]
      rintro ⟨n, hn⟩
      field_simp at hn
      have hj10 : (j : ℂ) = 10 * n := by
        have h2 : (2 : ℂ) * (Real.pi : ℂ) * Complex.I ≠ 0 := by
          simp [hpi, hI]
        apply mul_left_cancel₀ h2
        linear_combination hn
      have hjz : (j : ℤ) = 10 * n := by exact_mod_cast hj10
      omega
    rw [geom_sum_eq hne]
    have hpow : Complex.exp (2 * (Real.pi : ℂ) * Complex.I * j / 10) ^ 10
        = 1 := by
      rw [← Complex.exp_nat_mul]
      have harg : (10 : ℕ) * (2 * (Real.pi : ℂ) * Complex.I * j / 10) =
          (j : ℂ) * (2 * (Real.pi : ℂ) * Complex.I) := by
        push_cast
        ring
      rw [harg, Complex.exp_nat_mul, Complex.exp_two_pi_mul_I, one_pow]
    rw [hpow]
    simp

theorem rfft_delta (h : ℝ) :
    rfft [0, h, 0, 0, 0, 0, 0, 0, 0, 0] =
      (List.range 6).map fun k : ℕ =>
        (h : ℂ) * Complex.exp (-(2 * (Real.pi : ℂ) * Complex.I * (k : ℂ) /
          10)) := by
  unfold rfft
  rw [show ([0, h, 0, 0, 0, 0, 0, 0, 0, 0] : List ℝ).length = 10 from rfl]
  apply List.map_congr_left
  intro k hk
  rw [show (10 : ℕ) = 9 + 1 from rfl, sum_getD_cons, sum_getD_cons,
    sum_getD_cons, sum_getD_cons, sum_getD_cons, sum_getD_cons, sum_getD_cons,
    sum_getD_cons, sum_getD_cons, sum_getD_cons]
  simp only [Finset.range_zero, Finset.sum_empty, Complex.ofReal_zero,
    zero_mul, add_zero, zero_add]
  congr 1
  push_cast
  ring_nf

theorem conj_term (h : ℝ) (k : ℕ) :
    (starRingEnd ℂ) (((-h : ℝ) : ℂ) *
        Complex.exp (-(2 * (Real.pi : ℂ) * Complex.I * (k : ℂ) / 10))) =
      ((-h : ℝ) : ℂ) *
        Complex.exp (2 * (Real.pi : ℂ) * Complex.I * (k : ℂ) / 10) := by
  rw [map_mul, Complex.conj_ofReal, ← Complex.exp_conj]
  congr 2
  simp [map_div₀, Complex.conj_I, map_ofNat, map_natCast, Complex.conj_ofReal]
  ring

theorem prod_term (h : ℝ) (k : ℕ) :
    ((h : ℝ) : ℂ) *
        Complex.exp (-(2 * (Real.pi : ℂ) * Complex.I * (k : ℂ) / 10)) *
        (((-h : ℝ) : ℂ) *
          Complex.exp (2 * (Real.pi : ℂ) * Complex.I * (k : ℂ) / 10)) =
      ((-(h ^ 2) : ℝ) : ℂ) := by
  have hmul : Complex.exp (-(2 * (Real.pi : ℂ) * Complex.I * (k : ℂ) / 10)) *
      Complex.exp (2 * (Real.pi : ℂ) * Complex.I * (k : ℂ) / 10) = 1 := by
    rw [← Complex.exp_add]
    ring_nf
    exact Complex.exp_zero
  push_cast
  calc (h : ℂ) *
        Complex.exp (-(2 * (Real.pi : ℂ) * Complex.I * (k : ℂ) / 10)) *
        (-(h : ℂ) * Complex.exp (2 * (Real.pi : ℂ) * Complex.I * (k : ℂ) / 10))
      = -(h : ℂ) ^ 2 *
          (Complex.exp (-(2 * (Real.pi : ℂ) * Complex.I * (k : ℂ) / 10)) *
            Complex.exp (2 * (Real.pi : ℂ) * Complex.I * (k : ℂ) / 10)) := by
        ring
    _ = -(h : ℂ) ^ 2 := by rw [hmul, mul_one]

theorem phase_neg_sq (h : ℝ) :
    phaseTransform ((-(h ^ 2) : ℝ) : ℂ) =
      ((-(h ^ 2 / (h ^ 2 + 1e-10)) : ℝ) : ℂ) := by
  unfold phaseTransform
  rw [Complex.abs_ofReal, abs_neg, abs_of_nonneg (sq_nonneg h),
    ← Complex.ofReal_div]
  congr 1
  rw [neg_div]

theorem const_map_getD (w : ℂ) (m : ℕ) (hm : m < 6) :
    ((List.range 6).map fun _ => w).getD m 0 = w := by
  rw [List.getD_eq_getElem?_getD, List.getElem?_map, List.getElem?_range hm]
  rfl

theorem irfft_const (z : ℝ) :
    irfft ((List.range 6).map fun _ => ((z : ℝ) : ℂ)) =
      (List.range 10).map fun j : ℕ => if j = 0 then z else 0 := by
  unfold irfft
  rw [show (((List.range 6).map fun _ : ℕ => ((z : ℝ) : ℂ)).length) = 6 by
    simp]
  rw [show (2 * (6 - 1) : ℕ) = 10 from rfl]
  apply List.map_congr_left
  intro j hjm
  have hj : j < 10 := List.mem_range.mp hjm
  have hsum : ∑ k ∈ Finset.range 10,
      (if k < 6 then ((List.range 6).map fun _ => ((z : ℝ) : ℂ)).getD k 0
       else (starRingEnd ℂ)
         (((List.range 6).map fun _ => ((z : ℝ) : ℂ)).getD (10 - k) 0)) *
        Complex.exp (2 * (Real.pi : ℂ) * Complex.I * (j : ℂ) * (k : ℂ) /
          ((10 : ℕ) : ℂ)) =
      ((z : ℝ) : ℂ) *
        ∑ k ∈ Finset.range 10,
          Complex.exp (2 * (Real.pi : ℂ) * Complex.I * j / 10) ^ k := by
    rw [Finset.mul_sum]
    apply Finset.sum_congr rfl
    intro k hkm
    have hk : k < 10 := Finset.mem_range.mp hkm
    have hcoef : (if k < 6 then
        ((List.range 6).map fun _ => ((z : ℝ) : ℂ)).getD k 0
       else (starRingEnd ℂ)
         (((List.range 6).map fun _ => ((z : ℝ) : ℂ)).getD (10 - k) 0)) =
        ((z : ℝ) : ℂ) := by
      by_cases hk6 : k < 6
      · rw [if_pos hk6, const_map_getD]
        exact hk6
      · rw [if_neg hk6, const_map_getD _ _ (by omega), Complex.conj_ofReal]
    rw [hcoef]
    congr 1
    rw [show 2 * (Real.pi : ℂ) * Complex.I * (j : ℂ) * (k : ℂ) /
        ((10 : ℕ) : ℂ) =
        (k : ℂ) * (2 * (Real.pi : ℂ) * Complex.I * j / 10) by push_cast; ring,
      Complex.exp_nat_mul]
  rw [hsum, sum_exp_pow_ten j hj]
  by_cases hj0 : j = 0
  · rw [if_pos hj0, if_pos hj0]
    have hval : (1 / ((10 : ℕ) : ℂ)) * (((z : ℝ) : ℂ) * 10) =
        ((z : ℝ) : ℂ) := by
      push_cast
      ring
    rw [hval, Complex.ofReal_re]
  · rw [if_neg hj0, if_neg hj0]
    simp

theorem argmax_neg_head (z : ℝ) (hz : z < 0) :
    argmaxList [z, 0, 0, 0, 0, 0, 0, 0, 0, 0] = 1 := by
  simp only [argmaxList, argmaxGo, if_pos hz, lt_self_iff_false, if_false]

theorem argmax_pos_head (c : ℝ) (hc : 0 < c) :
    argmaxList [c, 0, 0, 0, 0, 0, 0, 0, 0, 0] = 0 := by
  simp only [argmaxList, argmaxGo, if_neg (not_lt.mpr hc.le)]

theorem gccCorrelation_delta :
    gccCorrelation [0, hannW 10 1, 0, 0, 0, 0, 0, 0, 0, 0]
        [0, -hannW 10 1, 0, 0, 0, 0, 0, 0, 0, 0] =
      [-(hannW 10 1 ^ 2 / (hannW 10 1 ^ 2 + 1e-10)), 0, 0, 0, 0, 0, 0, 0, 0,
        0] := by
  unfold gccCorrelation
  rw [show ([0, -hannW 10 1, 0, 0, 0, 0, 0, 0, 0, 0] : List ℝ) =
    [0, -(hannW 10 1), 0, 0, 0, 0, 0, 0, 0, 0] from rfl]
  rw [rfft_delta (hannW 10 1), rfft_delta (-(hannW 10 1)),
    List.zipWith_map, List.zipWith_same, List.map_map]
  have hterm : ∀ k ∈ List.range 6,
      (phaseTransform ∘ fun k : ℕ =>
        (hannW 10 1 : ℂ) *
            Complex.exp (-(2 * (Real.pi : ℂ) * Complex.I * (k : ℂ) / 10)) *
          (starRingEnd ℂ) (((-hannW 10 1 : ℝ) : ℂ) *
            Complex.exp (-(2 * (Real.pi : ℂ) * Complex.I * (k : ℂ) / 10))))
        k =
      ((-(hannW 10 1 ^ 2 / (hannW 10 1 ^ 2 + 1e-10)) : ℝ) : ℂ) := by
    intro k hk
    simp only [Function.comp_apply]
    rw [conj_term, prod_term, phase_neg_sq]
  rw [List.map_congr_left hterm, irfft_const]
  rw [show List.range 10 = [0, 1, 2, 3, 4, 5, 6, 7, 8, 9] from rfl]
  norm_num

/-- C4 counterexample: with `signal1` a unit impulse at sample 1 and
`signal2` its negation (both length 10), the PHAT correlation is a single
negative spike at index 0.  `np.argmax` over the signed values picks the
first zero at index 1 (lag 1), while the argmax of the correlation
magnitude, as the claim defines the peak, picks index 0 (lag 0) — the
returned delay is not the claimed GCC-PHAT value. -/
theorem gccPhat_signed_vs_magnitude_argmax :
    computeCrossCorrelation deltaSig negDeltaSig = 1 ∧
      gccPhatClaim deltaSig negDeltaSig = 0 ∧
      computeCrossCorrelation deltaSig negDeltaSig ≠
        gccPhatClaim deltaSig negDeltaSig := by
  have hh := hannW_ten_one_pos
  have hcpos : 0 < hannW 10 1 ^ 2 / (hannW 10 1 ^ 2 + 1e-10) := by positivity
  have hy1 : windowed deltaSig 10 = [0, hannW 10 1, 0, 0, 0, 0, 0, 0, 0, 0] := by
    unfold windowed
    rw [show List.range 10 = [0, 1, 2, 3, 4, 5, 6, 7, 8, 9] from rfl]
    simp [deltaSig]
  have hy2 : windowed negDeltaSig 10 =
      [0, -hannW 10 1, 0, 0, 0, 0, 0, 0, 0, 0] := by
    unfold windowed
    rw [show List.range 10 = [0, 1, 2, 3, 4, 5, 6, 7, 8, 9] from rfl]
    simp [negDeltaSig]
  have hccc : computeCrossCorrelation deltaSig negDeltaSig = 1 := by
    unfold computeCrossCorrelation
    rw [if_neg (by decide), if_neg (by decide)]
    rw [show deltaSig.length = 10 from rfl,
      show negDeltaSig.take 10 = negDeltaSig from rfl, hy1, hy2,
      gccCorrelation_delta, argmax_neg_head _ (neg_lt_zero.mpr hcpos)]
    unfold lagOfPeak
    norm_num
  have hspec : gccPhatClaim deltaSig negDeltaSig = 0 := by
    unfold gccPhatClaim
    rw [show deltaSig.length = 10 from rfl, hy1, hy2, gccCorrelation_delta]
    have habs : ([-(hannW 10 1 ^ 2 / (hannW 10 1 ^ 2 + 1e-10)), 0, 0, 0, 0, 0,
        0, 0, 0, 0] : List ℝ).map (fun r => |r|) =
        [hannW 10 1 ^ 2 / (hannW 10 1 ^ 2 + 1e-10), 0, 0, 0, 0, 0, 0, 0, 0,
          0] := by
      simp [abs_of_pos hcpos]
    rw [habs, argmax_pos_head _ hcpos]
    unfold lagOfPeak
    norm_num
  refine ⟨hccc, hspec, ?_⟩
  rw [hccc, hspec]
  norm_num

/-- C4 as amended: for equal-length inputs of at least 10 samples the
returned delay equals the described GCC-PHAT pipeline (Hann window,
forward FFTs, cross-power spectrum, phase transform with epsilon 1e-10,
inverse FFT, wrap-around lag correction) with the peak index taken as the
first argmax of the correlation values themselves — numpy argmax of the
signed correlation — rather than of the correlation magnitude. -/
theorem computeCrossCorrelation_matches_value_argmax (s1 s2 : List ℝ)
    (hlen : s1.length = s2.length) (h10 : 10 ≤ s1.length) :
    computeCrossCorrelation s1 s2 = gccPhatValue s1 s2 := by
  unfold computeCrossCorrelation gccPhatValue
  rw [if_neg (by omega), if_neg (by omega), hlen, List.take_length]

/-- Witness for C4 as amended at a concrete pair of length-10 signals. -/
theorem computeCrossCorrelation_matches_value_argmax_witness :
    computeCrossCorrelation deltaSig deltaSig = gccPhatValue deltaSig
      deltaSig :=
  computeCrossCorrelation_matches_value_argmax deltaSig deltaSig rfl
    (by decide)

end IRLSub
